import Mathlib

/-!
Shallow embedding of the MINDG graph-convolution layers (src/layers.py):
SparseNGCNLayer and DenseNGCNLayer together with the external
torch_sparse.spmm primitive they are built on.

Modelling conventions:
- dense matrices are lists of rows with rational entries;
- sparse matrices are (indices, values) coordinate lists, as in the source;
- the random Bernoulli draw of dropout is passed in as an explicit mask
  (true = keep the entry), and the training flag selects whether dropout
  is active, mirroring torch.nn.functional.dropout;
- fallible tensor operations (dimension checks, index bounds, dropout
  rate checks) return Option / Except;
- the Xavier-uniform random initialisation draw is passed to the
  constructors as explicit entry functions;
- device placement is an execution-environment concern and is not part of
  the numeric semantics, so it is omitted from the layer state.
-/

namespace MINDG

/-- Dense matrices: a list of rows, entries rational. -/
abbrev DMat : Type := List (List ℚ)

/-- Entry access with a zero default for out-of-range positions. -/
def entry (X : DMat) (i j : ℕ) : ℚ := (X.getD i []).getD j 0

/-- Number of columns of a dense matrix: the width of its first row. -/
def cols (X : DMat) : ℕ := (X.headD []).length

/-- Sparse matrix in the (indices, values) coordinate form used by the
layers for both the feature matrix and the normalized adjacency matrix. -/
structure SparseMat where
  indices : List (ℕ × ℕ)
  values : List ℚ

/-- torch_sparse.spmm(index, value, m, n, matrix): multiply the sparse
(m x n) matrix given in coordinate form by the dense operand X, which must
have exactly n rows. Fails on an index/value length mismatch, when the
declared inner dimension n disagrees with the dense operand's row count,
or when a coordinate is out of the declared (m, n) range. Duplicate
coordinates accumulate, as in the scatter-add implementation. -/
def spmm (indices : List (ℕ × ℕ)) (values : List ℚ) (m n : ℕ) (X : DMat) :
    Option DMat :=
  if indices.length = values.length ∧ n = X.length ∧
      ∀ e ∈ indices, e.1 < m ∧ e.2 < n then
    some ((List.range m).map (fun i => (List.range (cols X)).map (fun j =>
      ((indices.zip values).map (fun e =>
        if e.1.1 = i then e.2 * entry X e.1.2 j else 0)).sum)))
  else none

/-- torch.mm: dense matrix product; fails when the left operand's row
widths do not match the right operand's row count. -/
def mm (A B : DMat) : Option DMat :=
  if ∀ row ∈ A, row.length = B.length then
    some (A.map (fun row => (List.range (cols B)).map (fun j =>
      ((List.range B.length).map (fun k => row.getD k 0 * entry B k j)).sum)))
  else none

/-- Broadcast addition of the (1 x out_channels) bias row to every row. -/
def addBias (X : DMat) (b : List ℚ) : DMat :=
  X.map (fun row => (List.range row.length).map (fun j =>
    row.getD j 0 + b.getD j 0))

/-- Elementwise ReLU. -/
def relu (X : DMat) : DMat := X.map (fun row => row.map (fun x => max x 0))

/-- torch.nn.functional.dropout with the Bernoulli draw supplied as an
explicit mask (true = keep). Rates outside [0, 1] are rejected; outside
training mode the input passes through unchanged; in training mode kept
entries are rescaled by 1/(1-p) and dropped entries become zero. -/
def dropout (p : ℚ) (training : Bool) (mask : ℕ → ℕ → Bool) (X : DMat) :
    Option DMat :=
  if p < 0 ∨ 1 < p then none
  else some (if training then
    (List.range X.length).map (fun i =>
      (List.range (X.getD i []).length).map (fun j =>
        if mask i j then entry X i j * (1 - p)⁻¹ else 0))
  else X)

/-- feature_count in SparseNGCNLayer.forward: torch.max over each row of
the 2 x nnz index tensor, plus one. The first component is one plus the
largest row index, the second one plus the largest column index. -/
def featureCount (f : SparseMat) : ℕ × ℕ :=
  ((f.indices.map (fun e => e.1)).foldr max 0 + 1,
   (f.indices.map (fun e => e.2)).foldr max 0 + 1)

/-- One propagation step of the loop shared by both forward passes:
left-multiply by the normalized adjacency matrix, with both dense extents
taken from the current feature matrix's row count (base_features.shape[0]),
never from the adjacency matrix's own indices. -/
def adjStep (adj : SparseMat) (b : DMat) : Option DMat :=
  spmm adj.indices adj.values b.length b.length b

/-- k successive adjacency multiplications (the propagation loop as a
plain recursion on the number of steps). -/
def adjPow (adj : SparseMat) : ℕ → DMat → Option DMat
  | 0, b => some b
  | k + 1, b => (adjStep adj b).bind (adjPow adj k)

/-- Learned state and configuration of SparseNGCNLayer. -/
structure SparseNGCNLayer where
  in_channels : ℕ
  out_channels : ℕ
  iterations : ℤ
  dropout_rate : ℚ
  weight_matrix : DMat
  bias : List ℚ

/-- SparseNGCNLayer.__init__ together with define_parameters and
init_parameters: the weight matrix is allocated with in_channels rows and
out_channels columns and the bias with out_channels entries, filled from
the supplied Xavier-uniform draw. The constructor performs no validation
of the configuration, so it never fails. -/
def SparseNGCNLayer.init (in_channels out_channels : ℕ) (iterations : ℤ)
    (dropout_rate : ℚ) (wInit : ℕ → ℕ → ℚ) (bInit : ℕ → ℚ) :
    Except Unit SparseNGCNLayer :=
  .ok ⟨in_channels, out_channels, iterations, dropout_rate,
    (List.range in_channels).map (fun i =>
      (List.range out_channels).map (fun j => wInit i j)),
    (List.range out_channels).map bInit⟩

/-- SparseNGCNLayer.forward: project the sparse features through the
weight matrix (with dense extents inferred from the feature indices), add
the bias, apply dropout, apply ReLU, then run the propagation loop
(iterations - 1) times. -/
def SparseNGCNLayer.forward (L : SparseNGCNLayer) (training : Bool)
    (mask : ℕ → ℕ → Bool) (normalized_adjacency_matrix features : SparseMat) :
    Option DMat :=
  (spmm features.indices features.values (featureCount features).1
      (featureCount features).2 L.weight_matrix).bind (fun b1 =>
    (dropout L.dropout_rate training mask (addBias b1 L.bias)).bind (fun b2 =>
      (List.range (L.iterations - 1).toNat).foldlM
        (fun b _ => adjStep normalized_adjacency_matrix b) (relu b2)))

/-- Learned state and configuration of DenseNGCNLayer. -/
structure DenseNGCNLayer where
  in_channels : ℕ
  out_channels : ℕ
  iterations : ℤ
  dropout_rate : ℚ
  weight_matrix : DMat
  bias : List ℚ

/-- DenseNGCNLayer.__init__ together with define_parameters and
init_parameters; identical to the sparse variant, and likewise performs no
validation of the configuration. -/
def DenseNGCNLayer.init (in_channels out_channels : ℕ) (iterations : ℤ)
    (dropout_rate : ℚ) (wInit : ℕ → ℕ → ℚ) (bInit : ℕ → ℚ) :
    Except Unit DenseNGCNLayer :=
  .ok ⟨in_channels, out_channels, iterations, dropout_rate,
    (List.range in_channels).map (fun i =>
      (List.range out_channels).map (fun j => wInit i j)),
    (List.range out_channels).map bInit⟩

/-- DenseNGCNLayer.forward: dense projection, then dropout, then the
propagation loop (iterations - 1) times, then the bias addition. No ReLU
is applied in this variant. -/
def DenseNGCNLayer.forward (L : DenseNGCNLayer) (training : Bool)
    (mask : ℕ → ℕ → Bool) (normalized_adjacency_matrix : SparseMat)
    (features : DMat) : Option DMat :=
  (mm features L.weight_matrix).bind (fun b1 =>
    (dropout L.dropout_rate training mask b1).bind (fun b2 =>
      ((List.range (L.iterations - 1).toNat).foldlM
        (fun b _ => adjStep normalized_adjacency_matrix b) b2).map
        (fun b => addBias b L.bias)))

/-- Identity sparse adjacency matrix of size m: the indices enumerate the
diagonal and every value is 1. -/
def idAdj (m : ℕ) : SparseMat :=
  ⟨(List.range m).map (fun k => (k, k)), List.replicate m 1⟩

/-- Dense form of a sparse (indices, values) matrix with the given
extents; duplicate coordinates accumulate, matching spmm. -/
def densify (f : SparseMat) (m n : ℕ) : DMat :=
  (List.range m).map (fun i => (List.range n).map (fun j =>
    ((f.indices.zip f.values).map (fun e =>
      if e.1 = (i, j) then e.2 else 0)).sum))

/-! Basic loop lemmas: the for-loop over range equals the recursion. -/

theorem foldlM_option_append {α β : Type} (f : β → α → Option β)
    (l1 l2 : List α) (b : β) :
    (l1 ++ l2).foldlM f b = (l1.foldlM f b).bind (fun x => l2.foldlM f x) := by
  induction l1 generalizing b with
  | nil => rfl
  | cons a l ih =>
      simp only [List.cons_append, List.foldlM_cons]
      cases h : f b a <;> simp [ih]

theorem adjPow_succ_right (adj : SparseMat) (k : ℕ) (b : DMat) :
    adjPow adj (k + 1) b = (adjPow adj k b).bind (adjStep adj) := by
  induction k generalizing b with
  | zero =>
      rw [show adjPow adj 1 b = (adjStep adj b).bind (adjPow adj 0) from rfl]
      cases h : adjStep adj b <;> simp [h, adjPow]
  | succ k ih =>
      rw [show adjPow adj (k + 1 + 1) b
            = (adjStep adj b).bind (adjPow adj (k + 1)) from rfl,
          show adjPow adj (k + 1) b
            = (adjStep adj b).bind (adjPow adj k) from rfl]
      cases h : adjStep adj b with
      | none => rfl
      | some c => simpa using ih c

theorem loop_eq_adjPow (adj : SparseMat) (k : ℕ) (b : DMat) :
    (List.range k).foldlM (fun x _ => adjStep adj x) b = adjPow adj k b := by
  induction k generalizing b with
  | zero => rfl
  | succ k ih =>
      rw [show List.range (k + 1) = List.range k ++ [k] from List.range_succ k]
      rw [foldlM_option_append, ih, adjPow_succ_right]
      have hfun : (fun x => ([k] : List ℕ).foldlM (fun y _ => adjStep adj y) x)
          = adjStep adj := by
        funext x
        show (adjStep adj x).bind
          (fun y => (([] : List ℕ)).foldlM (fun y _ => adjStep adj y) y)
            = adjStep adj x
        cases h : adjStep adj x <;> rfl
      rw [hfun]

/-- C8: when the layer is not in training mode, dropout is an identity
pass-through, so forward is a deterministic function of its inputs and
parameters: two calls with different random dropout draws (masks) return
identical outputs, for both the sparse and the dense layer. -/
theorem eval_mode_forward_deterministic (Ls : SparseNGCNLayer)
    (Ld : DenseNGCNLayer) (mask1 mask2 : ℕ → ℕ → Bool) (adj f : SparseMat)
    (df : DMat) :
    Ls.forward false mask1 adj f = Ls.forward false mask2 adj f ∧
    Ld.forward false mask1 adj df = Ld.forward false mask2 adj df := by
  constructor <;> rfl

/-- C4 counterexample: constructing either layer with dropout rate 2
(outside [0, 1)) and iteration count 0 (non-positive) succeeds: no
invalid-configuration error is raised at construction time. -/
theorem layer_init_accepts_invalid_config :
    SparseNGCNLayer.init 3 2 0 2 (fun _ _ => 0) (fun _ => 0)
      = .ok ⟨3, 2, 0, 2, [[0, 0], [0, 0], [0, 0]], [0, 0]⟩ ∧
    DenseNGCNLayer.init 3 2 0 2 (fun _ _ => 0) (fun _ => 0)
      = .ok ⟨3, 2, 0, 2, [[0, 0], [0, 0], [0, 0]], [0, 0]⟩ := by
  constructor <;> rfl

/-- C4 amended: construction of either layer performs no validation at
all: for every dropout rate and every iteration count (including values
outside [0, 1) and non-positive counts) construction succeeds, storing the
given configuration verbatim. -/
theorem layer_init_never_fails (inC outC : ℕ) (K : ℤ) (p : ℚ)
    (wInit : ℕ → ℕ → ℚ) (bInit : ℕ → ℚ) :
    SparseNGCNLayer.init inC outC K p wInit bInit
      = .ok ⟨inC, outC, K, p,
        (List.range inC).map (fun i =>
          (List.range outC).map (fun j => wInit i j)),
        (List.range outC).map bInit⟩ ∧
    DenseNGCNLayer.init inC outC K p wInit bInit
      = .ok ⟨inC, outC, K, p,
        (List.range inC).map (fun i =>
          (List.range outC).map (fun j => wInit i j)),
        (List.range outC).map bInit⟩ := by
  constructor <;> rfl

/-- C1: for the sparse layer with iterations K = k + 1 >= 1, forward
computes the projection, then adds the bias once, applies dropout once and
ReLU once, and then performs exactly k = K - 1 left-multiplications by the
adjacency matrix with no further bias, dropout or ReLU. -/
theorem sparse_forward_unfolds_to_adjacency_power (L : SparseNGCNLayer)
    (training : Bool) (mask : ℕ → ℕ → Bool) (adj f : SparseMat) (k : ℕ)
    (hK : L.iterations = (k : ℤ) + 1) :
    L.forward training mask adj f =
      (spmm f.indices f.values (featureCount f).1 (featureCount f).2
          L.weight_matrix).bind (fun proj =>
        (dropout L.dropout_rate training mask (addBias proj L.bias)).bind
          (fun dropped => adjPow adj k (relu dropped))) := by
  have ht : (((k : ℤ) + 1) - 1).toNat = k := by omega
  simp only [SparseNGCNLayer.forward, hK, ht, loop_eq_adjPow]

theorem sparse_forward_unfolds_to_adjacency_power_witness :
    (SparseNGCNLayer.mk 1 1 2 0 [[2]] [3]).forward false (fun _ _ => true)
        ⟨[(0, 0)], [1]⟩ ⟨[(0, 0)], [1]⟩ =
      (spmm [(0, 0)] [1] (featureCount ⟨[(0, 0)], [1]⟩).1
          (featureCount ⟨[(0, 0)], [1]⟩).2 [[2]]).bind (fun proj =>
        (dropout 0 false (fun _ _ => true) (addBias proj [3])).bind
          (fun dropped => adjPow ⟨[(0, 0)], [1]⟩ 1 (relu dropped))) :=
  sparse_forward_unfolds_to_adjacency_power (SparseNGCNLayer.mk 1 1 2 0 [[2]] [3])
    false (fun _ _ => true) ⟨[(0, 0)], [1]⟩ ⟨[(0, 0)], [1]⟩ 1 (by decide)

/-- C2: for the dense layer with iterations K = k + 1 >= 1, forward
computes the dense projection, applies dropout, performs exactly k = K - 1
left-multiplications by the adjacency matrix, and only then adds the bias;
no ReLU is applied anywhere in the dense variant. -/
theorem dense_forward_unfolds_to_adjacency_power (L : DenseNGCNLayer)
    (training : Bool) (mask : ℕ → ℕ → Bool) (adj : SparseMat) (df : DMat)
    (k : ℕ) (hK : L.iterations = (k : ℤ) + 1) :
    L.forward training mask adj df =
      (mm df L.weight_matrix).bind (fun proj =>
        (dropout L.dropout_rate training mask proj).bind (fun dropped =>
          (adjPow adj k dropped).map (fun x => addBias x L.bias))) := by
  have ht : (((k : ℤ) + 1) - 1).toNat = k := by omega
  simp only [DenseNGCNLayer.forward, hK, ht, loop_eq_adjPow]

theorem dense_forward_unfolds_to_adjacency_power_witness :
    (DenseNGCNLayer.mk 1 1 2 0 [[2]] [3]).forward false (fun _ _ => true)
        ⟨[(0, 0)], [1]⟩ [[5]] =
      (mm [[5]] [[2]]).bind (fun proj =>
        (dropout 0 false (fun _ _ => true) proj).bind (fun dropped =>
          (adjPow ⟨[(0, 0)], [1]⟩ 1 dropped).map (fun x => addBias x [3]))) :=
  dense_forward_unfolds_to_adjacency_power (DenseNGCNLayer.mk 1 1 2 0 [[2]] [3])
    false (fun _ _ => true) ⟨[(0, 0)], [1]⟩ [[5]] 1 (by decide)

/-- C6: for iterations = 1 the propagation loop executes zero times: the
sparse output is exactly ReLU(dropout(projection + bias)) and the dense
output is exactly dropout(projection) + bias, with no adjacency
multiplication applied. -/
theorem iterations_one_skips_propagation (Ls : SparseNGCNLayer)
    (Ld : DenseNGCNLayer) (training : Bool) (mask : ℕ → ℕ → Bool)
    (adj f : SparseMat) (df : DMat) (hs : Ls.iterations = 1)
    (hd : Ld.iterations = 1) :
    Ls.forward training mask adj f =
      (spmm f.indices f.values (featureCount f).1 (featureCount f).2
          Ls.weight_matrix).bind (fun proj =>
        (dropout Ls.dropout_rate training mask (addBias proj Ls.bias)).map
          relu) ∧
    Ld.forward training mask adj df =
      (mm df Ld.weight_matrix).bind (fun proj =>
        (dropout Ld.dropout_rate training mask proj).map
          (fun x => addBias x Ld.bias)) := by
  have h0 : ((1 : ℤ) - 1).toNat = 0 := rfl
  constructor
  · simp only [SparseNGCNLayer.forward, hs, h0, List.range_zero,
      List.foldlM_nil, Option.map_eq_bind]
    rfl
  · simp only [DenseNGCNLayer.forward, hd, h0, List.range_zero,
      List.foldlM_nil]
    cases hm : mm df Ld.weight_matrix with
    | none => rfl
    | some proj =>
        show (dropout Ld.dropout_rate training mask proj).bind
            (fun a => Option.map (fun x => addBias x Ld.bias) (pure a))
          = Option.map (fun x => addBias x Ld.bias)
            (dropout Ld.dropout_rate training mask proj)
        cases hdp : dropout Ld.dropout_rate training mask proj <;> rfl

theorem iterations_one_skips_propagation_witness :
    (SparseNGCNLayer.mk 1 1 1 0 [[2]] [3]).forward false (fun _ _ => true)
        ⟨[(0, 0)], [1]⟩ ⟨[(0, 0)], [1]⟩ =
      (spmm [(0, 0)] [1] (featureCount ⟨[(0, 0)], [1]⟩).1
          (featureCount ⟨[(0, 0)], [1]⟩).2 [[2]]).bind (fun proj =>
        (dropout 0 false (fun _ _ => true) (addBias proj [3])).map relu) ∧
    (DenseNGCNLayer.mk 1 1 1 0 [[2]] [3]).forward false (fun _ _ => true)
        ⟨[(0, 0)], [1]⟩ [[5]] =
      (mm [[5]] [[2]]).bind (fun proj =>
        (dropout 0 false (fun _ _ => true) proj).map
          (fun x => addBias x [3])) :=
  iterations_one_skips_propagation (SparseNGCNLayer.mk 1 1 1 0 [[2]] [3])
    (DenseNGCNLayer.mk 1 1 1 0 [[2]] [3]) false (fun _ _ => true)
    ⟨[(0, 0)], [1]⟩ ⟨[(0, 0)], [1]⟩ [[5]] rfl rfl

/-- C9: for every iterations value at most 1, including zero and negative
values, construction of either layer succeeds, and forward returns exactly
the same result as with iterations = 1, because the loop range is empty:
non-positive iteration counts are silently treated as one, not rejected. -/
theorem nonpositive_iterations_behave_as_one (inC outC : ℕ) (K : ℤ) (p : ℚ)
    (wInit : ℕ → ℕ → ℚ) (bInit : ℕ → ℚ) (w : DMat) (b : List ℚ)
    (training : Bool) (mask : ℕ → ℕ → Bool) (adj f : SparseMat) (df : DMat)
    (hK : K ≤ 1) :
    (∃ Ls, SparseNGCNLayer.init inC outC K p wInit bInit = .ok Ls) ∧
    (∃ Ld, DenseNGCNLayer.init inC outC K p wInit bInit = .ok Ld) ∧
    SparseNGCNLayer.forward ⟨inC, outC, K, p, w, b⟩ training mask adj f
      = SparseNGCNLayer.forward ⟨inC, outC, 1, p, w, b⟩ training mask adj f ∧
    DenseNGCNLayer.forward ⟨inC, outC, K, p, w, b⟩ training mask adj df
      = DenseNGCNLayer.forward ⟨inC, outC, 1, p, w, b⟩ training mask adj df := by
  have h0 : (K - 1).toNat = 0 := by omega
  refine ⟨⟨_, rfl⟩, ⟨_, rfl⟩, ?_, ?_⟩
  · simp only [SparseNGCNLayer.forward, h0]
    rfl
  · simp only [DenseNGCNLayer.forward, h0]
    rfl

theorem nonpositive_iterations_behave_as_one_witness :
    (∃ Ls, SparseNGCNLayer.init 1 1 (-2) 0 (fun _ _ => 0) (fun _ => 0)
      = .ok Ls) ∧
    (∃ Ld, DenseNGCNLayer.init 1 1 (-2) 0 (fun _ _ => 0) (fun _ => 0)
      = .ok Ld) ∧
    SparseNGCNLayer.forward ⟨1, 1, -2, 0, [[2]], [3]⟩ false (fun _ _ => true)
        ⟨[(0, 0)], [1]⟩ ⟨[(0, 0)], [1]⟩
      = SparseNGCNLayer.forward ⟨1, 1, 1, 0, [[2]], [3]⟩ false
        (fun _ _ => true) ⟨[(0, 0)], [1]⟩ ⟨[(0, 0)], [1]⟩ ∧
    DenseNGCNLayer.forward ⟨1, 1, -2, 0, [[2]], [3]⟩ false (fun _ _ => true)
        ⟨[(0, 0)], [1]⟩ [[5]]
      = DenseNGCNLayer.forward ⟨1, 1, 1, 0, [[2]], [3]⟩ false
        (fun _ _ => true) ⟨[(0, 0)], [1]⟩ [[5]] :=
  nonpositive_iterations_behave_as_one 1 1 (-2) 0 (fun _ _ => 0) (fun _ => 0)
    [[2]] [3] false (fun _ _ => true) ⟨[(0, 0)], [1]⟩ ⟨[(0, 0)], [1]⟩ [[5]]
    (by decide)

/-! List arithmetic helper lemmas used by the remaining claims. -/

theorem le_foldr_max (l : List ℕ) (x : ℕ) (hx : x ∈ l) :
    x ≤ l.foldr max 0 := by
  induction l with
  | nil => cases hx
  | cons a l ih =>
      rcases List.mem_cons.mp hx with h | h
      · subst h; exact le_max_left _ _
      · exact le_trans (ih h) (le_max_right _ _)

theorem foldr_max_mem (l : List ℕ) (h : l ≠ []) : l.foldr max 0 ∈ l := by
  induction l with
  | nil => exact absurd rfl h
  | cons a l ih =>
      cases l with
      | nil => simp
      | cons b t =>
          have hfold : (a :: b :: t).foldr max 0
              = max a ((b :: t).foldr max 0) := rfl
          rcases max_choice a ((b :: t).foldr max 0) with hm | hm
          · rw [hfold, hm]; exact List.mem_cons_self _ _
          · rw [hfold, hm]; exact List.mem_cons_of_mem _ (ih (by simp))

theorem lsum_map_add {α : Type} (l : List α) (f g : α → ℚ) :
    (l.map (fun x => f x + g x)).sum = (l.map f).sum + (l.map g).sum := by
  induction l with
  | nil => simp
  | cons a l ih => simp [ih]; ring

theorem lsum_map_mul_right {α : Type} (l : List α) (f : α → ℚ) (c : ℚ) :
    (l.map (fun x => f x * c)).sum = (l.map f).sum * c := by
  induction l with
  | nil => simp
  | cons a l ih => simp [ih]; ring

theorem lsum_map_zero {α : Type} (l : List α) (f : α → ℚ)
    (h : ∀ x ∈ l, f x = 0) : (l.map f).sum = 0 := by
  apply List.sum_eq_zero
  intro x hx
  obtain ⟨y, hy, rfl⟩ := List.mem_map.mp hx
  exact h y hy

theorem lsum_swap {α β : Type} (l1 : List α) (l2 : List β) (g : α → β → ℚ) :
    (l1.map (fun a => (l2.map (g a)).sum)).sum
      = (l2.map (fun b => (l1.map (fun a => g a b)).sum)).sum := by
  induction l1 with
  | nil => simp
  | cons a l ih =>
      simp only [List.map_cons, List.sum_cons, ih]
      rw [lsum_map_add]

theorem sum_range_pick (n c : ℕ) (t : ℕ → ℚ) (h : c < n) :
    ((List.range n).map (fun k => if k = c then t k else 0)).sum = t c := by
  induction n with
  | zero => cases h
  | succ n ih =>
      rw [List.range_succ, List.map_append, List.sum_append]
      rcases Nat.lt_succ_iff_lt_or_eq.mp h with hc | hc
      · rw [ih hc]
        have : n ≠ c := Nat.ne_of_gt hc
        simp [this]
      · subst hc
        have hz : ((List.range c).map (fun k => if k = c then t k else 0)).sum
            = 0 := by
          apply lsum_map_zero
          intro x hx
          have : x < c := List.mem_range.mp hx
          simp [Nat.ne_of_lt this]
        simp [hz]

theorem getD_map_range {α : Type} (n : ℕ) (g : ℕ → α) (k : ℕ) (d : α)
    (h : k < n) : ((List.range n).map g).getD k d = g k := by
  rw [List.getD_eq_getElem ((List.range n).map g) d (by simpa using h)]
  simp

theorem featureCount_bounds (f : SparseMat) :
    ∀ e ∈ f.indices, e.1 < (featureCount f).1 ∧ e.2 < (featureCount f).2 := by
  intro e he
  constructor
  · exact Nat.lt_succ_of_le
      (le_foldr_max _ _ (List.mem_map.mpr ⟨e, he, rfl⟩))
  · exact Nat.lt_succ_of_le
      (le_foldr_max _ _ (List.mem_map.mpr ⟨e, he, rfl⟩))

/-- C3: the dense extents passed to the first sparse multiply are one plus
the maximum row index and one plus the maximum column index occurring in
the feature indices (each index is strictly below its extent and both
extents are attained), and forward fails whenever the inferred column
extent differs from the weight matrix's row count. -/
theorem sparse_forward_inferred_extents_and_dim_error (L : SparseNGCNLayer)
    (training : Bool) (mask : ℕ → ℕ → Bool) (adj f : SparseMat)
    (hne : f.indices ≠ []) :
    (∀ e ∈ f.indices, e.1 < (featureCount f).1 ∧ e.2 < (featureCount f).2) ∧
    (∃ e ∈ f.indices, e.1 + 1 = (featureCount f).1) ∧
    (∃ e ∈ f.indices, e.2 + 1 = (featureCount f).2) ∧
    ((featureCount f).2 ≠ L.weight_matrix.length →
      L.forward training mask adj f = none) := by
  refine ⟨featureCount_bounds f, ?_, ?_, ?_⟩
  · have hmem : (f.indices.map (fun e => e.1)).foldr max 0
        ∈ f.indices.map (fun e => e.1) :=
      foldr_max_mem _ (by simpa using hne)
    obtain ⟨e, he, hx⟩ := List.mem_map.mp hmem
    exact ⟨e, he, by rw [hx]; rfl⟩
  · have hmem : (f.indices.map (fun e => e.2)).foldr max 0
        ∈ f.indices.map (fun e => e.2) :=
      foldr_max_mem _ (by simpa using hne)
    obtain ⟨e, he, hx⟩ := List.mem_map.mp hmem
    exact ⟨e, he, by rw [hx]; rfl⟩
  · intro hbad
    have hsp : spmm f.indices f.values (featureCount f).1 (featureCount f).2
        L.weight_matrix = none := by
      unfold spmm
      rw [if_neg]
      intro hc
      exact hbad hc.2.1
    unfold SparseNGCNLayer.forward
    rw [hsp]
    rfl

theorem sparse_forward_inferred_extents_and_dim_error_witness :
    (∀ e ∈ (SparseMat.mk [(1, 0), (0, 2)] [1, 1]).indices,
      e.1 < (featureCount ⟨[(1, 0), (0, 2)], [1, 1]⟩).1 ∧
      e.2 < (featureCount ⟨[(1, 0), (0, 2)], [1, 1]⟩).2) ∧
    (∃ e ∈ (SparseMat.mk [(1, 0), (0, 2)] [1, 1]).indices,
      e.1 + 1 = (featureCount ⟨[(1, 0), (0, 2)], [1, 1]⟩).1) ∧
    (∃ e ∈ (SparseMat.mk [(1, 0), (0, 2)] [1, 1]).indices,
      e.2 + 1 = (featureCount ⟨[(1, 0), (0, 2)], [1, 1]⟩).2) ∧
    ((featureCount ⟨[(1, 0), (0, 2)], [1, 1]⟩).2 ≠ ([[1], [1]] : DMat).length →
      (SparseNGCNLayer.mk 2 1 1 0 [[1], [1]] [0]).forward false
        (fun _ _ => true) ⟨[(0, 0)], [1]⟩ ⟨[(1, 0), (0, 2)], [1, 1]⟩ = none) :=
  sparse_forward_inferred_extents_and_dim_error
    (SparseNGCNLayer.mk 2 1 1 0 [[1], [1]] [0]) false (fun _ _ => true)
    ⟨[(0, 0)], [1]⟩ ⟨[(1, 0), (0, 2)], [1, 1]⟩ (by decide)

/-! Shape lemmas for the dense operations. -/

theorem spmm_some_shape {ind : List (ℕ × ℕ)} {v : List ℚ} {m n : ℕ}
    {X Y : DMat} (h : spmm ind v m n X = some Y) :
    Y.length = m ∧ ∀ row ∈ Y, row.length = cols X := by
  unfold spmm at h
  split at h
  · have hy := Option.some.inj h
    subst hy
    refine ⟨by simp, ?_⟩
    intro row hrow
    obtain ⟨i, _, rfl⟩ := List.mem_map.mp hrow
    simp
  · cases h

theorem mm_some_shape {A B Y : DMat} (h : mm A B = some Y) :
    Y.length = A.length ∧ ∀ row ∈ Y, row.length = cols B := by
  unfold mm at h
  split at h
  · have hy := Option.some.inj h
    subst hy
    refine ⟨by simp, ?_⟩
    intro row hrow
    obtain ⟨r, _, rfl⟩ := List.mem_map.mp hrow
    simp
  · cases h

theorem addBias_length (X : DMat) (b : List ℚ) :
    (addBias X b).length = X.length := by
  simp [addBias]

theorem addBias_rect (X : DMat) (b : List ℚ) (w : ℕ)
    (h : ∀ row ∈ X, row.length = w) :
    ∀ row ∈ addBias X b, row.length = w := by
  intro row hrow
  obtain ⟨r, hr, rfl⟩ := List.mem_map.mp hrow
  simpa using h r hr

theorem relu_length (X : DMat) : (relu X).length = X.length := by
  simp [relu]

theorem relu_rect (X : DMat) (w : ℕ) (h : ∀ row ∈ X, row.length = w) :
    ∀ row ∈ relu X, row.length = w := by
  intro row hrow
  obtain ⟨r, hr, rfl⟩ := List.mem_map.mp hrow
  simpa using h r hr

theorem dropout_some_length {p : ℚ} {training : Bool} {mask : ℕ → ℕ → Bool}
    {X Y : DMat} (h : dropout p training mask X = some Y) :
    Y.length = X.length := by
  unfold dropout at h
  split at h
  · cases h
  · have hy := Option.some.inj h
    subst hy
    cases training <;> simp

theorem dropout_some_rect {p : ℚ} {training : Bool} {mask : ℕ → ℕ → Bool}
    {X Y : DMat} {w : ℕ} (h : dropout p training mask X = some Y)
    (hX : ∀ row ∈ X, row.length = w) : ∀ row ∈ Y, row.length = w := by
  unfold dropout at h
  split at h
  · cases h
  · have hy := Option.some.inj h
    subst hy
    cases training with
    | false => exact hX
    | true =>
        intro row hrow
        obtain ⟨i, hi, rfl⟩ := List.mem_map.mp hrow
        have hilt : i < X.length := List.mem_range.mp hi
        simp only [List.length_map, List.length_range]
        rw [List.getD_eq_getElem X [] hilt]
        exact hX _ (List.getElem_mem hilt)

theorem rect_cols (X : DMat) (w : ℕ) (h : ∀ row ∈ X, row.length = w) :
    ∀ row ∈ X, row.length = cols X := by
  intro row hrow
  cases X with
  | nil => cases hrow
  | cons r t =>
      rw [h row hrow]
      have : cols (r :: t) = r.length := rfl
      rw [this, h r (List.mem_cons_self _ _)]

theorem adjPow_shape (adj : SparseMat) (w : ℕ) (k : ℕ) :
    ∀ (b Y : DMat), adjPow adj k b = some Y →
      (∀ row ∈ b, row.length = w) →
      Y.length = b.length ∧ ∀ row ∈ Y, row.length = w := by
  induction k with
  | zero =>
      intro b Y h hb
      have hy := Option.some.inj h
      subst hy
      exact ⟨rfl, hb⟩
  | succ k ih =>
      intro b Y h hb
      rw [show adjPow adj (k + 1) b = (adjStep adj b).bind (adjPow adj k)
        from rfl] at h
      cases hs : adjStep adj b with
      | none => rw [hs] at h; cases h
      | some c =>
          rw [hs] at h
          have hshape := spmm_some_shape hs
          have hc_rect : ∀ row ∈ c, row.length = w := by
            intro row hrow
            have h2 := hshape.2 row hrow
            cases b with
            | nil =>
                have : c.length = 0 := hshape.1
                rw [List.length_eq_zero] at this
                subst this
                cases hrow
            | cons r t =>
                rw [h2]
                have : cols (r :: t) = r.length := rfl
                rw [this]
                exact hb r (List.mem_cons_self _ _)
          obtain ⟨hlen, hrect⟩ := ih c Y h hc_rect
          exact ⟨hlen.trans hshape.1, hrect⟩

/-- C10: every propagation step takes both dense extents from the current
matrix's row count, so each loop step preserves the shape, and a
successful forward pass of either layer returns a matrix with exactly the
row count established before the loop (the inferred row extent for the
sparse layer, the dense feature row count for the dense layer) and rows of
out_channels entries, for every iteration count. -/
theorem forward_output_shape_invariant (Ls : SparseNGCNLayer)
    (Ld : DenseNGCNLayer) (training : Bool) (mask : ℕ → ℕ → Bool)
    (adj f : SparseMat) (df : DMat)
    (hws : cols Ls.weight_matrix = Ls.out_channels)
    (hwd : cols Ld.weight_matrix = Ld.out_channels) :
    (∀ b Y, adjStep adj b = some Y →
      Y.length = b.length ∧ ∀ row ∈ Y, row.length = cols b) ∧
    (∀ Y, Ls.forward training mask adj f = some Y →
      Y.length = (featureCount f).1 ∧
        ∀ row ∈ Y, row.length = Ls.out_channels) ∧
    (∀ Y, Ld.forward training mask adj df = some Y →
      Y.length = df.length ∧ ∀ row ∈ Y, row.length = Ld.out_channels) := by
  refine ⟨?_, ?_, ?_⟩
  · intro b Y h
    exact spmm_some_shape h
  · intro Y h
    unfold SparseNGCNLayer.forward at h
    cases h1 : spmm f.indices f.values (featureCount f).1 (featureCount f).2
        Ls.weight_matrix with
    | none => rw [h1] at h; cases h
    | some b1 =>
        rw [h1, Option.some_bind] at h
        cases h2 : dropout Ls.dropout_rate training mask
            (addBias b1 Ls.bias) with
        | none => rw [h2] at h; cases h
        | some b2 =>
            rw [h2, Option.some_bind, loop_eq_adjPow] at h
            have hb1 := spmm_some_shape h1
            have hrect : ∀ row ∈ relu b2, row.length = Ls.out_channels := by
              apply relu_rect
              apply dropout_some_rect h2
              apply addBias_rect
              intro row hrow
              rw [hb1.2 row hrow, hws]
            obtain ⟨hlen, hr⟩ := adjPow_shape adj Ls.out_channels _ _ _ h hrect
            refine ⟨?_, hr⟩
            rw [hlen, relu_length, dropout_some_length h2, addBias_length,
              hb1.1]
  · intro Y h
    unfold DenseNGCNLayer.forward at h
    cases h1 : mm df Ld.weight_matrix with
    | none => rw [h1] at h; cases h
    | some b1 =>
        rw [h1, Option.some_bind] at h
        cases h2 : dropout Ld.dropout_rate training mask b1 with
        | none => rw [h2] at h; cases h
        | some b2 =>
            rw [h2, Option.some_bind, loop_eq_adjPow] at h
            obtain ⟨bl, h3, hY⟩ := Option.map_eq_some'.mp h
            subst hY
            have hb1 := mm_some_shape h1
            have hrect : ∀ row ∈ b2, row.length = Ld.out_channels := by
              apply dropout_some_rect h2
              intro row hrow
              rw [hb1.2 row hrow, hwd]
            obtain ⟨hlen, hr⟩ := adjPow_shape adj Ld.out_channels _ _ _ h3 hrect
            refine ⟨?_, addBias_rect _ _ _ hr⟩
            rw [addBias_length, hlen, dropout_some_length h2, hb1.1]

theorem forward_output_shape_invariant_witness :
    (∀ b Y, adjStep ⟨[(0, 0)], [1]⟩ b = some Y →
      Y.length = b.length ∧ ∀ row ∈ Y, row.length = cols b) ∧
    (∀ Y, (SparseNGCNLayer.mk 1 1 2 0 [[2]] [3]).forward false
        (fun _ _ => true) ⟨[(0, 0)], [1]⟩ ⟨[(0, 0)], [1]⟩ = some Y →
      Y.length = (featureCount ⟨[(0, 0)], [1]⟩).1 ∧
        ∀ row ∈ Y, row.length = (SparseNGCNLayer.mk 1 1 2 0 [[2]] [3]).out_channels) ∧
    (∀ Y, (DenseNGCNLayer.mk 1 1 2 0 [[2]] [3]).forward false
        (fun _ _ => true) ⟨[(0, 0)], [1]⟩ [[5]] = some Y →
      Y.length = ([[5]] : DMat).length ∧
        ∀ row ∈ Y, row.length = (DenseNGCNLayer.mk 1 1 2 0 [[2]] [3]).out_channels) :=
  forward_output_shape_invariant (SparseNGCNLayer.mk 1 1 2 0 [[2]] [3])
    (DenseNGCNLayer.mk 1 1 2 0 [[2]] [3]) false (fun _ _ => true)
    ⟨[(0, 0)], [1]⟩ ⟨[(0, 0)], [1]⟩ [[5]] (by decide) (by decide)

theorem zip_map_replicate {α β γ : Type} (l : List α) (f : α → β) (c : γ) :
    (l.map f).zip (List.replicate l.length c) = l.map (fun x => (f x, c)) := by
  induction l with
  | nil => rfl
  | cons a t ih => simp [List.replicate_succ, ih]

theorem rect_eta (X : DMat) (hrect : ∀ row ∈ X, row.length = cols X) :
    (List.range X.length).map (fun i => (List.range (cols X)).map
      (fun j => entry X i j)) = X := by
  apply List.ext_getElem
  · simp
  · intro i h1 h2
    rw [List.getElem_map, List.getElem_range]
    apply List.ext_getElem
    · simp only [List.length_map, List.length_range]
      exact (hrect (X[i]) (List.getElem_mem h2)).symm
    · intro j hj1 hj2
      rw [List.getElem_map, List.getElem_range]
      show entry X i j = X[i][j]
      unfold entry
      rw [List.getD_eq_getElem X [] h2, List.getD_eq_getElem (X[i]) 0 hj2]

theorem spmm_id (m : ℕ) (X : DMat) (hm : X.length = m)
    (hrect : ∀ row ∈ X, row.length = cols X) :
    spmm (idAdj m).indices (idAdj m).values m m X = some X := by
  unfold spmm idAdj
  rw [if_pos]
  · refine congrArg some ?_
    have hz := zip_map_replicate (List.range m) (fun k => (k, k)) (1 : ℚ)
    rw [List.length_range] at hz
    rw [hz]
    have hmain : (List.range m).map (fun i => (List.range (cols X)).map
        (fun j => (((List.range m).map (fun k => ((k, k), (1 : ℚ)))).map
          (fun e => if e.1.1 = i then e.2 * entry X e.1.2 j else 0)).sum))
        = (List.range m).map (fun i => (List.range (cols X)).map
          (fun j => entry X i j)) := by
      apply List.map_congr_left
      intro i hi
      apply List.map_congr_left
      intro j hj
      rw [List.map_map]
      have hcomp : ((fun e => if e.1.1 = i then e.2 * entry X e.1.2 j else 0)
            ∘ (fun k => ((k, k), (1 : ℚ))))
          = fun k => if k = i then (1 : ℚ) * entry X k j else 0 := rfl
      rw [hcomp, sum_range_pick m i _ (List.mem_range.mp hi), one_mul]
    rw [hmain, ← hm]
    exact rect_eta X hrect
  · refine ⟨by simp, hm.symm, ?_⟩
    intro e he
    obtain ⟨a, ha, rfl⟩ := List.mem_map.mp he
    have := List.mem_range.mp ha
    exact ⟨this, this⟩

theorem adjPow_id (m k : ℕ) (X : DMat) (hm : X.length = m)
    (hrect : ∀ row ∈ X, row.length = cols X) :
    adjPow (idAdj m) k X = some X := by
  induction k with
  | zero => rfl
  | succ k ih =>
      rw [show adjPow (idAdj m) (k + 1) X
        = (adjStep (idAdj m) X).bind (adjPow (idAdj m) k) from rfl]
      have hstep : adjStep (idAdj m) X = some X := by
        unfold adjStep
        rw [hm]
        exact spmm_id m X hm hrect
      rw [hstep, Option.some_bind]
      exact ih

/-- C7: when the adjacency matrix is the identity (indices enumerate the
diagonal, all values 1), each propagation step leaves the matrix
unchanged, so for every iteration count K = k + 1 >= 1 the output of
either layer equals its output for iterations = 1. -/
theorem identity_adjacency_fixed_point (Ls : SparseNGCNLayer)
    (Ld : DenseNGCNLayer) (training : Bool) (mask : ℕ → ℕ → Bool)
    (f : SparseMat) (df : DMat) (k : ℕ)
    (hKs : Ls.iterations = (k : ℤ) + 1) (hKd : Ld.iterations = (k : ℤ) + 1) :
    Ls.forward training mask (idAdj (featureCount f).1) f
      = SparseNGCNLayer.forward
        ⟨Ls.in_channels, Ls.out_channels, 1, Ls.dropout_rate,
          Ls.weight_matrix, Ls.bias⟩ training mask
        (idAdj (featureCount f).1) f ∧
    Ld.forward training mask (idAdj df.length) df
      = DenseNGCNLayer.forward
        ⟨Ld.in_channels, Ld.out_channels, 1, Ld.dropout_rate,
          Ld.weight_matrix, Ld.bias⟩ training mask (idAdj df.length) df := by
  have ht : (((k : ℤ) + 1) - 1).toNat = k := by omega
  have h1t : ((1 : ℤ) - 1).toNat = 0 := rfl
  constructor
  · unfold SparseNGCNLayer.forward
    dsimp only
    rw [hKs, ht, h1t]
    cases h1 : spmm f.indices f.values (featureCount f).1 (featureCount f).2
        Ls.weight_matrix with
    | none => rfl
    | some b1 =>
        rw [Option.some_bind, Option.some_bind]
        cases h2 : dropout Ls.dropout_rate training mask
            (addBias b1 Ls.bias) with
        | none => rfl
        | some b2 =>
            rw [Option.some_bind, Option.some_bind, loop_eq_adjPow,
              loop_eq_adjPow]
            have hb1 := spmm_some_shape h1
            have hrect : ∀ row ∈ relu b2,
                row.length = cols Ls.weight_matrix := by
              apply relu_rect
              apply dropout_some_rect h2
              apply addBias_rect
              exact hb1.2
            have hlen : (relu b2).length = (featureCount f).1 := by
              rw [relu_length, dropout_some_length h2, addBias_length, hb1.1]
            rw [adjPow_id _ k _ hlen (rect_cols _ _ hrect)]
            rfl
  · unfold DenseNGCNLayer.forward
    dsimp only
    rw [hKd, ht, h1t]
    cases h1 : mm df Ld.weight_matrix with
    | none => rfl
    | some b1 =>
        rw [Option.some_bind, Option.some_bind]
        cases h2 : dropout Ld.dropout_rate training mask b1 with
        | none => rfl
        | some b2 =>
            rw [Option.some_bind, Option.some_bind, loop_eq_adjPow,
              loop_eq_adjPow]
            have hb1 := mm_some_shape h1
            have hrect : ∀ row ∈ b2, row.length = cols Ld.weight_matrix :=
              dropout_some_rect h2 hb1.2
            have hlen : b2.length = df.length := by
              rw [dropout_some_length h2, hb1.1]
            rw [adjPow_id _ k _ hlen (rect_cols _ _ hrect)]
            rfl

theorem identity_adjacency_fixed_point_witness :
    (SparseNGCNLayer.mk 1 1 3 0 [[2]] [3]).forward false (fun _ _ => true)
        (idAdj (featureCount ⟨[(0, 0)], [1]⟩).1) ⟨[(0, 0)], [1]⟩
      = SparseNGCNLayer.forward ⟨1, 1, 1, 0, [[2]], [3]⟩ false
        (fun _ _ => true) (idAdj (featureCount ⟨[(0, 0)], [1]⟩).1)
        ⟨[(0, 0)], [1]⟩ ∧
    (DenseNGCNLayer.mk 1 1 3 0 [[2]] [3]).forward false (fun _ _ => true)
        (idAdj ([[5]] : DMat).length) [[5]]
      = DenseNGCNLayer.forward ⟨1, 1, 1, 0, [[2]], [3]⟩ false
        (fun _ _ => true) (idAdj ([[5]] : DMat).length) [[5]] :=
  identity_adjacency_fixed_point (SparseNGCNLayer.mk 1 1 3 0 [[2]] [3])
    (DenseNGCNLayer.mk 1 1 3 0 [[2]] [3]) false (fun _ _ => true)
    ⟨[(0, 0)], [1]⟩ [[5]] 2 (by decide) (by decide)

theorem dropout_eval (p : ℚ) (mask : ℕ → ℕ → Bool) (X : DMat)
    (hp0 : 0 ≤ p) (hp1 : p ≤ 1) : dropout p false mask X = some X := by
  unfold dropout
  have hp : ¬(p < 0 ∨ 1 < p) := by
    intro h
    rcases h with h | h
    · exact absurd h (not_lt.mpr hp0)
    · exact absurd h (not_lt.mpr hp1)
  rw [if_neg hp]
  rfl

theorem mm_densify (f : SparseMat) (m n : ℕ) (W : DMat)
    (hlen : f.indices.length = f.values.length) (hn : n = W.length)
    (hb : ∀ e ∈ f.indices, e.1 < m ∧ e.2 < n) :
    mm (densify f m n) W = spmm f.indices f.values m n W := by
  have hc_mm : ∀ row ∈ densify f m n, row.length = W.length := by
    intro row hrow
    unfold densify at hrow
    obtain ⟨i, _, rfl⟩ := List.mem_map.mp hrow
    simp [hn]
  unfold mm spmm
  rw [if_pos hc_mm, if_pos ⟨hlen, hn, hb⟩]
  refine congrArg some ?_
  unfold densify
  rw [List.map_map]
  apply List.map_congr_left
  intro i hi
  simp only [Function.comp_apply]
  apply List.map_congr_left
  intro j hj
  rw [← hn]
  have hgetD : ∀ kk ∈ List.range n,
      ((List.range n).map (fun j2 => ((f.indices.zip f.values).map
        (fun e => if e.1 = (i, j2) then e.2 else 0)).sum)).getD kk 0
          * entry W kk j
      = ((f.indices.zip f.values).map
        (fun e => if e.1 = (i, kk) then e.2 else 0)).sum * entry W kk j := by
    intro kk hkk
    rw [getD_map_range n _ kk 0 (List.mem_range.mp hkk)]
  rw [List.map_congr_left hgetD]
  have hmul : ∀ kk ∈ List.range n,
      ((f.indices.zip f.values).map
        (fun e => if e.1 = (i, kk) then e.2 else 0)).sum * entry W kk j
      = ((f.indices.zip f.values).map
        (fun e => (if e.1 = (i, kk) then e.2 else 0) * entry W kk j)).sum := by
    intro kk _
    exact (lsum_map_mul_right _ _ _).symm
  rw [List.map_congr_left hmul, lsum_swap]
  refine congrArg List.sum ?_
  apply List.map_congr_left
  intro e he
  have he1 : e.1 ∈ f.indices := by
    have he2 : (e.1, e.2) ∈ f.indices.zip f.values := by simpa using he
    exact (List.of_mem_zip he2).1
  by_cases hei : e.1.1 = i
  · have hterm : ∀ kk ∈ List.range n,
        (if e.1 = (i, kk) then e.2 else 0) * entry W kk j
        = if kk = e.1.2 then e.2 * entry W kk j else 0 := by
      intro kk _
      by_cases hk : kk = e.1.2
      · subst hk
        simp [Prod.ext_iff, hei]
      · have hk2 : e.1.2 ≠ kk := fun hcon => hk hcon.symm
        simp [Prod.ext_iff, hk, hk2]
    rw [List.map_congr_left hterm,
      sum_range_pick n e.1.2 _ (hb e.1 he1).2]
    simp [hei]
  · have hz : ∀ kk ∈ List.range n,
        ((fun kk => (if e.1 = (i, kk) then e.2 else 0) * entry W kk j) kk)
          = 0 := by
      intro kk _
      have : e.1 ≠ (i, kk) := by
        intro hcon
        exact hei (by rw [hcon])
      simp [this]
    rw [lsum_map_zero _ _ hz]
    simp [hei]

/-- C5: given the same nonempty feature matrix (sparse coordinate form for
the sparse layer, its densification for the dense layer), the same
adjacency, identical weight and bias parameters, and dropout disabled
(eval mode, rate in [0, 1]), the two projections agree on a single matrix
P, the sparse output is the adjacency-power loop applied to
ReLU(P + bias), and the dense output is bias plus the same adjacency-power
loop applied to P: the propagation loop is the identical adjPow in both
variants and the outputs differ only by the documented bias/ReLU ordering
asymmetry. The feature indices are required to be nonempty because the
source extent inference raises on an empty index tensor. -/
theorem sparse_dense_agree_up_to_ordering (inC outC : ℕ) (K : ℤ) (p : ℚ)
    (w : DMat) (b : List ℚ) (mask : ℕ → ℕ → Bool) (adj f : SparseMat)
    (_hne : f.indices ≠ [])
    (hlen : f.indices.length = f.values.length)
    (hn : (featureCount f).2 = w.length) (hp0 : 0 ≤ p) (hp1 : p ≤ 1) :
    ∃ P, spmm f.indices f.values (featureCount f).1 (featureCount f).2 w
        = some P ∧
      mm (densify f (featureCount f).1 (featureCount f).2) w = some P ∧
      SparseNGCNLayer.forward ⟨inC, outC, K, p, w, b⟩ false mask adj f
        = adjPow adj (K - 1).toNat (relu (addBias P b)) ∧
      DenseNGCNLayer.forward ⟨inC, outC, K, p, w, b⟩ false mask adj
          (densify f (featureCount f).1 (featureCount f).2)
        = (adjPow adj (K - 1).toNat P).map (fun x => addBias x b) := by
  have hbound := featureCount_bounds f
  obtain ⟨P, hP⟩ : ∃ P, spmm f.indices f.values (featureCount f).1
      (featureCount f).2 w = some P := by
    unfold spmm
    rw [if_pos ⟨hlen, hn, hbound⟩]
    exact ⟨_, rfl⟩
  have hmmP : mm (densify f (featureCount f).1 (featureCount f).2) w
      = some P := by
    rw [mm_densify f _ _ w hlen hn hbound, hP]
  refine ⟨P, hP, hmmP, ?_, ?_⟩
  · unfold SparseNGCNLayer.forward
    dsimp only
    rw [hP, Option.some_bind, dropout_eval p mask _ hp0 hp1,
      Option.some_bind, loop_eq_adjPow]
  · unfold DenseNGCNLayer.forward
    dsimp only
    rw [hmmP, Option.some_bind, dropout_eval p mask _ hp0 hp1,
      Option.some_bind, loop_eq_adjPow]

theorem sparse_dense_agree_up_to_ordering_witness :
    ∃ P, spmm [(0, 0)] [2] (featureCount ⟨[(0, 0)], [2]⟩).1
        (featureCount ⟨[(0, 0)], [2]⟩).2 [[3]] = some P ∧
      mm (densify ⟨[(0, 0)], [2]⟩ (featureCount ⟨[(0, 0)], [2]⟩).1
        (featureCount ⟨[(0, 0)], [2]⟩).2) [[3]] = some P ∧
      SparseNGCNLayer.forward ⟨1, 1, 2, 0, [[3]], [5]⟩ false
          (fun _ _ => true) ⟨[(0, 0)], [1]⟩ ⟨[(0, 0)], [2]⟩
        = adjPow ⟨[(0, 0)], [1]⟩ ((2 : ℤ) - 1).toNat
          (relu (addBias P [5])) ∧
      DenseNGCNLayer.forward ⟨1, 1, 2, 0, [[3]], [5]⟩ false
          (fun _ _ => true) ⟨[(0, 0)], [1]⟩
          (densify ⟨[(0, 0)], [2]⟩ (featureCount ⟨[(0, 0)], [2]⟩).1
            (featureCount ⟨[(0, 0)], [2]⟩).2)
        = (adjPow ⟨[(0, 0)], [1]⟩ ((2 : ℤ) - 1).toNat P).map
          (fun x => addBias x [5]) :=
  sparse_dense_agree_up_to_ordering 1 1 2 0 [[3]] [5] (fun _ _ => true)
    ⟨[(0, 0)], [1]⟩ ⟨[(0, 0)], [2]⟩ (by decide) (by decide) (by decide)
    (by decide) (by decide)

end MINDG
